import Mathlib

/-!
Verification of the `ohgmas-watch` time-tracking core: the task/segment data
model and its reporting engine (`pkg/task`), together with the week-bucketing
helpers of the report generator (`cmd/ow`).

Modelling conventions.

Timestamps (`time.Time`) are modelled as integer nanoseconds since the Go
zero time, January 1 of year 1 at 00:00:00 UTC — which falls on a Monday.
The Go zero time itself, used throughout the code as the "unset" sentinel
for an open segment, is the integer `0`; `time.Time.IsZero` becomes a test
against `0`, `After` becomes `<` read right to left, and `Sub` becomes
integer subtraction yielding a duration in nanoseconds.  Times are taken in
a fixed offset zone (UTC), so `AddDate(0, 0, n)` is `+ n` days of
nanoseconds and the weekday and start-of-day computations are integer
division by the length of a day.  Durations (`time.Duration`) are modelled
as unbounded integers; no claim under study concerns int64 wraparound.

Go map iteration order is randomized, and `sort.Slice` gives no guarantee
on the order of ties; the grouping code builds a map keyed by tagset and
then sorts the groups by total duration.  The map is modelled as an
association list in first-insertion order and the sort as a stable
insertion sort; every property proved below about group contents, group
durations and sortedness is independent of the order of duration ties, so
it holds for any iteration order and any correct sorting of the groups.
-/

namespace OhgmasWatch


/-- Model of `time.Time.IsZero`. -/
def timeIsZero (t : Int) : Bool := decide (t = 0)

/-- Model of `a.After(b)`: `a` is strictly later than `b`. -/
def timeAfter (a b : Int) : Bool := decide (b < a)

/-- Model of `Segment` from `pkg/task/types.go`: one span of work with a
creation time, a finish time (`0` while still open) and a note. -/
structure Segment where
  create : Int
  finish : Int
  note : String
deriving DecidableEq, Repr

/-- Model of `Task` from `pkg/task/types.go` (the mutex is not part of the
data). -/
structure Task where
  name : String
  description : String
  tags : List String
  segments : List Segment
deriving DecidableEq, Repr

/-- Model of `Watch` from `pkg/task/types.go`: the root list of tasks. -/
structure Watch where
  tasks : List Task
deriving DecidableEq, Repr

/-- Model of `isSegmentInRange` from `pkg/task/summary.go`: a closed-segment
range test with an exclusive lower and inclusive upper bound on the finish
time; open segments always fail. -/
def isSegmentInRange (segment : Segment) (start finish : Option Int) : Bool :=
  if timeIsZero segment.finish then false
  else if (match start with
           | some s => !timeAfter segment.finish s
           | none => false) then false
  else if (match finish with
           | some f => timeAfter segment.finish f
           | none => false) then false
  else true

/-- Model of `Task.HasSegmentsInRange` from `pkg/task/summary.go`. -/
def Task.HasSegmentsInRange (t : Task) (start finish : Option Int) : Bool :=
  t.segments.any (fun segment => isSegmentInRange segment start finish)

/-- Model of `Task.GetFilteredClosedSegmentsDuration` from
`pkg/task/summary.go`: total duration of the segments accepted by
`isSegmentInRange`. -/
def Task.GetFilteredClosedSegmentsDuration (t : Task) (start finish : Option Int) : Int :=
  t.segments.foldl
    (fun totalDuration segment =>
      if isSegmentInRange segment start finish then
        totalDuration + (segment.finish - segment.create)
      else totalDuration) 0

/-- Model of `Task.GetClosedSegmentsDuration` from the task lifecycle file:
total duration of all closed segments. -/
def Task.GetClosedSegmentsDuration (t : Task) : Int :=
  t.segments.foldl
    (fun totalDuration segment =>
      if !timeIsZero segment.finish then
        totalDuration + (segment.finish - segment.create)
      else totalDuration) 0

/-- Model of `Task.GetLastActivity` from `pkg/task/summary.go`: the zero
time if there are no segments, else the last segment's finish time when
closed and its create time when open. -/
def Task.GetLastActivity (t : Task) : Int :=
  match t.segments.getLast? with
  | none => 0
  | some lastSegment =>
    if timeIsZero lastSegment.finish then lastSegment.create else lastSegment.finish

/-- Model of `Task.HasUnclosedSegment` from the task lifecycle file. -/
def Task.HasUnclosedSegment (t : Task) : Bool :=
  t.segments.any (fun segment => timeIsZero segment.finish)

/-- Model of `Task.CloseSegment` from the task lifecycle file: set
`finish = now` on every segment whose finish time is still unset.  The Go
code calls `time.Now()` once per open segment inside one loop; the single
`now` parameter stands for that clock reading. -/
def Task.CloseSegment (t : Task) (now : Int) : Task :=
  { t with segments :=
      t.segments.map (fun segment =>
        if timeIsZero segment.finish then { segment with finish := now } else segment) }

/-- C1: the range test used by filtering.  An open segment is always
rejected.  A closed segment is accepted iff every given start bound is
strictly before its finish time and its finish time is at or before every
given finish bound; in particular a segment whose finish equals the start
bound is excluded, and one whose finish equals the finish bound (with the
start test passing) is included. -/
theorem isSegmentInRange_range_test (segment : Segment) (start finish : Option Int) :
    (segment.finish = 0 → isSegmentInRange segment start finish = false)
    ∧ (segment.finish ≠ 0 →
        (isSegmentInRange segment start finish = true ↔
          (∀ s ∈ start, s < segment.finish) ∧ (∀ f ∈ finish, segment.finish ≤ f)))
    ∧ isSegmentInRange segment (some segment.finish) finish = false
    ∧ (segment.finish ≠ 0 → (∀ s ∈ start, s < segment.finish) →
        isSegmentInRange segment start (some segment.finish) = true) := by
  refine ⟨fun h => ?_, fun h => ?_, ?_, fun h hs => ?_⟩
  · simp [isSegmentInRange, timeIsZero, h]
  · cases start <;> cases finish <;>
      simp [isSegmentInRange, timeIsZero, timeAfter, h]
  · by_cases h : segment.finish = 0
    · simp [isSegmentInRange, timeIsZero, h]
    · cases finish <;> simp [isSegmentInRange, timeIsZero, timeAfter, h]
  · cases start with
    | none => simp [isSegmentInRange, timeIsZero, timeAfter, h]
    | some s =>
      have hs' : s < segment.finish := by simpa using hs
      simp [isSegmentInRange, timeIsZero, timeAfter, h, hs', not_lt.mpr (le_of_lt hs')]

/-- Witness for C1 at a concrete closed segment and concrete bounds. -/
theorem isSegmentInRange_range_test_witness :
    isSegmentInRange ⟨0, 5, ""⟩ (some 3) (some 7) = true := by
  have h := (isSegmentInRange_range_test ⟨0, 5, ""⟩ (some 3) (some 7)).2.1 (by decide)
  refine h.mpr ⟨fun s hs => ?_, fun f hf => ?_⟩
  · simp only [Option.mem_def, Option.some.injEq] at hs
    subst hs; decide
  · simp only [Option.mem_def, Option.some.injEq] at hf
    subst hf; decide

/-- C9: with both bounds absent the range test accepts exactly the closed
segments, so the filtered duration query at `nil` bounds coincides with the
unfiltered closed-segments duration. -/
theorem GetFilteredClosedSegmentsDuration_none_eq (t : Task) :
    t.GetFilteredClosedSegmentsDuration none none = t.GetClosedSegmentsDuration
    ∧ ∀ segment : Segment, isSegmentInRange segment none none = !timeIsZero segment.finish := by
  have hseg : ∀ segment : Segment,
      isSegmentInRange segment none none = !timeIsZero segment.finish := by
    intro segment
    by_cases h : segment.finish = 0 <;> simp [isSegmentInRange, timeIsZero, h]
  refine ⟨?_, hseg⟩
  unfold Task.GetFilteredClosedSegmentsDuration Task.GetClosedSegmentsDuration
  refine congrFun (congrFun (congrArg _ ?_) _) _
  funext totalDuration segment
  rw [hseg]

/-- Model of the tagset-key computation inlined in `GetSummaryByTagset`
(and duplicated in `GetWeeklySummaryByTagsetWithTasks`) in
`pkg/task/summary.go`: copy the tag list, sort it (Go `sort.Strings` is
byte-lexicographic, which for UTF-8 agrees with the codepoint order used
here), join with `", "`, and substitute `"(no tags)"` when the joined
string is empty. -/
def getTagsetKey (tags : List String) : String :=
  let tagset := List.insertionSort (· ≤ · : String → String → Prop) tags
  let tagsetKey := String.intercalate ", " tagset
  if tagsetKey = "" then "(no tags)" else tagsetKey

/-- Accumulating half of `String.intercalate` never shortens its
accumulator. -/
theorem intercalate_go_length (s : String) :
    ∀ (as : List String) (acc : String),
      acc.length ≤ (String.intercalate.go acc s as).length
  | [], acc => by simp [String.intercalate.go]
  | a :: as, acc => by
    simp only [String.intercalate.go]
    calc acc.length ≤ (acc ++ s ++ a).length := by
          simp only [String.length_append]; omega
      _ ≤ _ := intercalate_go_length s as (acc ++ s ++ a)

/-- Joining two or more strings with the separator `", "` never yields the
empty string. -/
theorem intercalate_cons_cons_ne_empty (x y : String) (rest : List String) :
    String.intercalate ", " (x :: y :: rest) ≠ "" := by
  intro hcontra
  have h1 : (x ++ ", " ++ y).length ≤ (String.intercalate ", " (x :: y :: rest)).length := by
    simp only [String.intercalate, String.intercalate.go]
    exact intercalate_go_length ", " rest (x ++ ", " ++ y)
  rw [hcontra] at h1
  have h2 : ("" : String).length = 0 := rfl
  have h3 : (", " : String).length = 2 := rfl
  simp only [String.length_append, h2, h3] at h1
  omega

/-- Counterexample to C4 as stated: the list holding one empty tag is
neither empty nor nil, yet its key is the literal `"(no tags)"` rather
than the sorted join (which is the empty string): the code substitutes
`"(no tags)"` whenever the joined string is empty, not only for an empty
tag list. -/
theorem getTagsetKey_blank_tag_counterexample :
    ([""] : List String) ≠ [] ∧ getTagsetKey [""] = "(no tags)"
    ∧ String.intercalate ", " (List.insertionSort (· ≤ · : String → String → Prop) [""]) = ""
    ∧ ("(no tags)" : String) ≠ "" := by
  refine ⟨by simp, by decide, by decide, by decide⟩

/-- C4 (amended): the tagset key is the lexicographically sorted tag list
joined with `", "`, with `"(no tags)"` substituted whenever that joined
string is empty — which happens for the empty (nil) tag list and also for
the single-empty-tag list `[""]`.  Permutations of a tag list share one
key, duplicates are not removed (`["a", "a"]` keys as `"a, a"`, distinct
from the key of `["a"]`), and for any list other than `[]` and `[""]` the
key is exactly the sorted join. -/
theorem getTagsetKey_spec :
    getTagsetKey [] = "(no tags)"
    ∧ (∀ L1 L2 : List String, L1.Perm L2 → getTagsetKey L1 = getTagsetKey L2)
    ∧ getTagsetKey ["a"] = "a"
    ∧ getTagsetKey ["a", "a"] = "a, a"
    ∧ getTagsetKey ["a", "a"] ≠ getTagsetKey ["a"]
    ∧ (∀ L : List String, L ≠ [] → L ≠ [""] →
        getTagsetKey L =
          String.intercalate ", " (List.insertionSort (· ≤ · : String → String → Prop) L)) := by
  have hsortaa : List.insertionSort (· ≤ · : String → String → Prop) ["a", "a"] = ["a", "a"] := by
    simp only [List.insertionSort, List.orderedInsert]
    exact List.orderedInsert_of_le (· ≤ · : String → String → Prop) [] le_rfl
  have h4 : getTagsetKey ["a", "a"] = "a, a" := by
    simp only [getTagsetKey, hsortaa]
    decide
  have h3 : getTagsetKey ["a"] = "a" := by decide
  refine ⟨by decide, fun L1 L2 hperm => ?_, h3, h4, by rw [h4, h3]; decide,
    fun L hne hblank => ?_⟩
  · have hsort : List.insertionSort (· ≤ · : String → String → Prop) L1 =
        List.insertionSort (· ≤ · : String → String → Prop) L2 :=
      List.eq_of_perm_of_sorted
        ((List.perm_insertionSort _ L1).trans
          (hperm.trans (List.perm_insertionSort _ L2).symm))
        (List.sorted_insertionSort _ L1) (List.sorted_insertionSort _ L2)
    simp only [getTagsetKey, hsort]
  · have hp : (List.insertionSort (· ≤ · : String → String → Prop) L).Perm L :=
      List.perm_insertionSort _ L
    rcases hs : List.insertionSort (· ≤ · : String → String → Prop) L with _ | ⟨x, _ | ⟨y, rest⟩⟩
    · rw [hs] at hp
      exact absurd hp.symm.eq_nil hne
    · rw [hs] at hp
      have hL : L = [x] := (List.perm_singleton.mp hp.symm)
      have hx : x ≠ "" := fun hx0 => hblank (by rw [hL, hx0])
      have hj : String.intercalate ", " [x] = x := rfl
      simp only [getTagsetKey, hs, hj, if_neg hx]
    · have hne2 := intercalate_cons_cons_ne_empty x y rest
      simp only [getTagsetKey, hs, if_neg hne2]

/-- Witness for C4 (amended) at a concrete pair of permuted tag lists. -/
theorem getTagsetKey_spec_witness : getTagsetKey ["b", "a"] = getTagsetKey ["a", "b"] :=
  getTagsetKey_spec.2.1 ["b", "a"] ["a", "b"] (List.Perm.swap "a" "b" [])

/-- C6: closing the segments of a task closes every currently open segment
at `now` (not only the last one), leaves every already closed segment
untouched, is the identity when no segment is open, and is idempotent: a
second close (at any later clock reading) changes nothing, because the
first close left no open segment (the wall clock never reads the zero
sentinel, whence the `now ≠ 0` hypothesis). -/
theorem CloseSegment_spec (t : Task) (now now2 : Int) (h : now ≠ 0) :
    (∀ (i : Nat) (s : Segment), t.segments[i]? = some s → s.finish = 0 →
        (t.CloseSegment now).segments[i]? = some { s with finish := now })
    ∧ (∀ (i : Nat) (s : Segment), t.segments[i]? = some s → s.finish ≠ 0 →
        (t.CloseSegment now).segments[i]? = some s)
    ∧ (t.HasUnclosedSegment = false → t.CloseSegment now = t)
    ∧ (t.CloseSegment now).CloseSegment now2 = t.CloseSegment now := by
  refine ⟨fun i s hi hs => ?_, fun i s hi hs => ?_, fun h0 => ?_, ?_⟩
  · simp [Task.CloseSegment, List.getElem?_map, hi, timeIsZero, hs]
  · simp [Task.CloseSegment, List.getElem?_map, hi, timeIsZero, hs]
  · have hall : ∀ s ∈ t.segments, timeIsZero s.finish = false := by
      simpa [Task.HasUnclosedSegment] using h0
    have hmap : t.segments.map (fun segment =>
        if timeIsZero segment.finish then { segment with finish := now } else segment)
        = t.segments := by
      conv_rhs => rw [← List.map_id t.segments]
      exact List.map_congr_left (fun s hs => by simp [hall s hs])
    simp only [Task.CloseSegment, hmap]
  · have hcomp : ∀ s : Segment,
        (if timeIsZero (if timeIsZero s.finish then
            ({ s with finish := now } : Segment) else s).finish then
          { (if timeIsZero s.finish then ({ s with finish := now } : Segment) else s) with
              finish := now2 }
        else (if timeIsZero s.finish then ({ s with finish := now } : Segment) else s))
        = (if timeIsZero s.finish then ({ s with finish := now } : Segment) else s) := by
      intro s
      by_cases hs : s.finish = 0 <;> simp [timeIsZero, hs, h]
    simp only [Task.CloseSegment, List.map_map, Function.comp_def, hcomp]

/-- Witness for C6: closing a task with one open and one closed segment a
second time changes nothing. -/
theorem CloseSegment_spec_witness :
    (Task.CloseSegment (Task.CloseSegment ⟨"t", "", [], [⟨1, 0, ""⟩, ⟨2, 3, ""⟩]⟩ 10) 11)
      = Task.CloseSegment ⟨"t", "", [], [⟨1, 0, ""⟩, ⟨2, 3, ""⟩]⟩ 10 :=
  (CloseSegment_spec ⟨"t", "", [], [⟨1, 0, ""⟩, ⟨2, 3, ""⟩]⟩ 10 11 (by decide)).2.2.2

/-- Model of `TagsetSummary` from `pkg/task/summary.go`. -/
structure TagsetSummary where
  Tagset : String
  Tasks : List Task
  Duration : Int
deriving DecidableEq, Repr

/-- Model of `WeeklySummary` from `pkg/task/summary.go`. -/
structure WeeklySummary where
  WeekStart : Int
  Tagsets : List TagsetSummary
deriving DecidableEq, Repr

/-- Ordering of tagset groups by descending total duration, the comparator
passed to `sort.Slice` in `GetSummaryByTagset`. -/
def byDescDuration (a b : TagsetSummary) : Prop := b.Duration ≤ a.Duration

instance : DecidableRel byDescDuration :=
  fun a b => inferInstanceAs (Decidable (b.Duration ≤ a.Duration))

instance : IsTotal TagsetSummary byDescDuration :=
  ⟨fun a b => le_total b.Duration a.Duration⟩

instance : IsTrans TagsetSummary byDescDuration :=
  ⟨fun _ _ _ hab hbc => le_trans hbc hab⟩

/-- Model of the update `tagsetMap[tagsetKey]` in `GetSummaryByTagset`:
append the task and add its duration to the entry with the given key,
creating the entry if absent.  The Go map is modelled as an association
list in first-insertion order; map iteration order is randomized in Go,
but every property proved below is insensitive to the order of the
entries. -/
def addToTagset (entries : List TagsetSummary) (key : String) (t : Task) (d : Int) :
    List TagsetSummary :=
  match entries with
  | [] => [⟨key, [t], d⟩]
  | e :: rest =>
    if e.Tagset = key then
      { e with Tasks := e.Tasks ++ [t], Duration := e.Duration + d } :: rest
    else e :: addToTagset rest key t d

/-- One iteration of the task loop of `GetSummaryByTagset`: skip the task
when a time filter is present and the task has no segments in range,
otherwise accumulate it under its tagset key. -/
def summaryStep (start finish : Option Int) (acc : List TagsetSummary) (currentTask : Task) :
    List TagsetSummary :=
  if (start.isSome || finish.isSome) && !currentTask.HasSegmentsInRange start finish then acc
  else
    addToTagset acc (getTagsetKey currentTask.tags) currentTask
      (currentTask.GetFilteredClosedSegmentsDuration start finish)

/-- Model of `Watch.GetSummaryByTagset` from `pkg/task/summary.go`: group
the watch's tasks by tagset key, then sort the groups by descending total
duration. -/
def Watch.GetSummaryByTagset (w : Watch) (start finish : Option Int) : List TagsetSummary :=
  List.insertionSort byDescDuration (w.tasks.foldl (summaryStep start finish) [])

/-- The skip test of the task loop, phrased as "the task is included". -/
def taskIncluded (start finish : Option Int) (t : Task) : Bool :=
  !((start.isSome || finish.isSome) && !t.HasSegmentsInRange start finish)

/-- A task appears in the groups after an `addToTagset` step iff it already
appeared or is the task just added. -/
theorem mem_tasks_addToTagset (entries : List TagsetSummary) (key : String) (t : Task)
    (d : Int) (x : Task) :
    (∃ g ∈ addToTagset entries key t d, x ∈ g.Tasks) ↔
      (∃ g ∈ entries, x ∈ g.Tasks) ∨ x = t := by
  induction entries with
  | nil => simp [addToTagset]
  | cons e rest ih =>
    simp only [addToTagset]
    by_cases he : e.Tagset = key
    · rw [if_pos he]
      constructor
      · rintro ⟨g, hg, hx⟩
        rcases List.mem_cons.mp hg with rfl | hg2
        · rcases List.mem_append.mp hx with h1 | h1
          · exact Or.inl ⟨e, List.mem_cons_self _ _, h1⟩
          · exact Or.inr (List.mem_singleton.mp h1)
        · exact Or.inl ⟨g, List.mem_cons_of_mem _ hg2, hx⟩
      · rintro (⟨g, hg, hx⟩ | rfl)
        · rcases List.mem_cons.mp hg with rfl | hg2
          · exact ⟨_, List.mem_cons_self _ _, List.mem_append.mpr (Or.inl hx)⟩
          · exact ⟨g, List.mem_cons_of_mem _ hg2, hx⟩
        · exact ⟨_, List.mem_cons_self _ _,
            List.mem_append.mpr (Or.inr (List.mem_singleton.mpr rfl))⟩
    · rw [if_neg he]
      constructor
      · rintro ⟨g, hg, hx⟩
        rcases List.mem_cons.mp hg with rfl | hg2
        · exact Or.inl ⟨g, List.mem_cons_self _ _, hx⟩
        · rcases ih.mp ⟨g, hg2, hx⟩ with ⟨g2, h1, h2⟩ | rfl
          · exact Or.inl ⟨g2, List.mem_cons_of_mem _ h1, h2⟩
          · exact Or.inr rfl
      · rintro (⟨g, hg, hx⟩ | rfl)
        · rcases List.mem_cons.mp hg with rfl | hg2
          · exact ⟨g, List.mem_cons_self _ _, hx⟩
          · rcases ih.mpr (Or.inl ⟨g, hg2, hx⟩) with ⟨g2, h1, h2⟩
            exact ⟨g2, List.mem_cons_of_mem _ h1, h2⟩
        · rcases ih.mpr (Or.inr rfl) with ⟨g2, h1, h2⟩
          exact ⟨g2, List.mem_cons_of_mem _ h1, h2⟩

/-- A task appears in the groups accumulated by the task loop iff it
already appeared in the accumulator or is an included task of the list. -/
theorem mem_tasks_summaryFold (start finish : Option Int) :
    ∀ (ts : List Task) (acc : List TagsetSummary) (x : Task),
      (∃ g ∈ ts.foldl (summaryStep start finish) acc, x ∈ g.Tasks) ↔
        (∃ g ∈ acc, x ∈ g.Tasks) ∨ (x ∈ ts ∧ taskIncluded start finish x = true) := by
  intro ts
  induction ts with
  | nil => simp
  | cons t ts ih =>
    intro acc x
    rw [List.foldl_cons, ih]
    unfold summaryStep
    by_cases hskip :
        ((start.isSome || finish.isSome) && !t.HasSegmentsInRange start finish) = true
    · rw [if_pos hskip]
      by_cases hx : x = t
      · subst hx
        simp [taskIncluded, hskip]
      · simp [hx]
    · rw [if_neg hskip]
      rw [mem_tasks_addToTagset]
      by_cases hx : x = t
      · subst hx
        simp [taskIncluded, hskip]
      · simp [hx]

/-- C5: `GetSummaryByTagset` includes a task iff no time bound is given
(then every task of the watch is included, even with zero closed duration)
or the task has some segment accepted by the range test; and the returned
groups are ordered by descending total duration. -/
theorem GetSummaryByTagset_inclusion_and_order (w : Watch) (start finish : Option Int) :
    (∀ t ∈ w.tasks,
        (∃ g ∈ w.GetSummaryByTagset start finish, t ∈ g.Tasks) ↔
          ((start = none ∧ finish = none) ∨ t.HasSegmentsInRange start finish = true))
    ∧ List.Sorted byDescDuration (w.GetSummaryByTagset start finish) := by
  constructor
  · intro t ht
    unfold Watch.GetSummaryByTagset
    have hmem : (∃ g ∈ List.insertionSort byDescDuration
        (w.tasks.foldl (summaryStep start finish) []), t ∈ g.Tasks) ↔
        (∃ g ∈ w.tasks.foldl (summaryStep start finish) [], t ∈ g.Tasks) := by
      constructor <;> rintro ⟨g, hg, hgt⟩ <;>
        exact ⟨g, by simpa using hg, hgt⟩
    rw [hmem, mem_tasks_summaryFold]
    simp only [List.not_mem_nil, false_and, exists_false, ht, true_and, false_or]
    cases start <;> cases finish <;> simp [taskIncluded]
  · exact List.sorted_insertionSort byDescDuration _

/-- Witness for C5: with no time bound, a concrete task of a one-task watch
appears in the summary. -/
theorem GetSummaryByTagset_inclusion_and_order_witness :
    ∃ g ∈ Watch.GetSummaryByTagset ⟨[⟨"t", "", ["a"], [⟨1, 5, ""⟩]⟩]⟩ none none,
      (⟨"t", "", ["a"], [⟨1, 5, ""⟩]⟩ : Task) ∈ g.Tasks :=
  ((GetSummaryByTagset_inclusion_and_order ⟨[⟨"t", "", ["a"], [⟨1, 5, ""⟩]⟩]⟩ none none).1
    ⟨"t", "", ["a"], [⟨1, 5, ""⟩]⟩ (by simp)).mpr (Or.inl ⟨rfl, rfl⟩)

/-- Shape of the keys after an `addToTagset` step: unchanged when the key
already has an entry, extended by the key at the end otherwise. -/
theorem addToTagset_map_Tagset (entries : List TagsetSummary) (key : String) (t : Task)
    (d : Int) :
    (addToTagset entries key t d).map (fun g => g.Tagset) =
      if key ∈ entries.map (fun g => g.Tagset) then entries.map (fun g => g.Tagset)
      else entries.map (fun g => g.Tagset) ++ [key] := by
  induction entries with
  | nil => simp [addToTagset]
  | cons e rest ih =>
    simp only [addToTagset]
    by_cases he : e.Tagset = key
    · subst he
      simp
    · rw [if_neg he, List.map_cons, ih, List.map_cons]
      by_cases hk : key ∈ rest.map (fun g => g.Tagset)
      · rw [if_pos hk, if_pos (List.mem_cons_of_mem _ hk)]
      · rw [if_neg hk, if_neg (fun hc => by
          rcases List.mem_cons.mp hc with hc1 | hc1
          · exact he hc1.symm
          · exact hk hc1), List.cons_append]

/-- Elimination principle for membership in `addToTagset`: a resulting
group is an untouched old entry, the matched entry extended by the new
task and duration, or a freshly created entry. -/
theorem mem_addToTagset (entries : List TagsetSummary) (key : String) (t : Task) (d : Int)
    (g : TagsetSummary) (hg : g ∈ addToTagset entries key t d) :
    g ∈ entries
    ∨ (∃ e ∈ entries, e.Tagset = key ∧
        g = { e with Tasks := e.Tasks ++ [t], Duration := e.Duration + d })
    ∨ g = ⟨key, [t], d⟩ := by
  induction entries with
  | nil =>
    simp only [addToTagset, List.mem_singleton] at hg
    exact Or.inr (Or.inr hg)
  | cons e rest ih =>
    simp only [addToTagset] at hg
    by_cases he : e.Tagset = key
    · rw [if_pos he] at hg
      rcases List.mem_cons.mp hg with rfl | hg2
      · exact Or.inr (Or.inl ⟨e, List.mem_cons_self _ _, he, rfl⟩)
      · exact Or.inl (List.mem_cons_of_mem _ hg2)
    · rw [if_neg he] at hg
      rcases List.mem_cons.mp hg with rfl | hg2
      · exact Or.inl (List.mem_cons_self _ _)
      · rcases ih hg2 with h1 | ⟨e2, h1, h2, h3⟩ | h1
        · exact Or.inl (List.mem_cons_of_mem _ h1)
        · exact Or.inr (Or.inl ⟨e2, List.mem_cons_of_mem _ h1, h2, h3⟩)
        · exact Or.inr (Or.inr h1)

/-- Invariant carried through the task loop of `GetSummaryByTagset`: keys
are distinct, every group is keyed by the tagset key of each of its tasks,
every group's task list is an in-order selection of the processed tasks,
and every group's duration is the sum of its tasks' durations under `f`. -/
def SummaryInv (f : Task → Int) (L : List Task) (entries : List TagsetSummary) : Prop :=
  (entries.map (fun g => g.Tagset)).Nodup
  ∧ (∀ g ∈ entries, ∀ x ∈ g.Tasks, g.Tagset = getTagsetKey x.tags)
  ∧ (∀ g ∈ entries, g.Tasks.Sublist L)
  ∧ (∀ g ∈ entries, g.Duration = (g.Tasks.map f).sum)

/-- An `addToTagset` step preserves the loop invariant, extending the
processed-task list by the task just added. -/
theorem addToTagset_inv (f : Task → Int) (L : List Task) (t : Task)
    (entries : List TagsetSummary) (hinv : SummaryInv f L entries) :
    SummaryInv f (L ++ [t]) (addToTagset entries (getTagsetKey t.tags) t (f t)) := by
  obtain ⟨h1, h2, h3, h4⟩ := hinv
  refine ⟨?_, ?_, ?_, ?_⟩
  · rw [addToTagset_map_Tagset]
    by_cases hk : getTagsetKey t.tags ∈ entries.map (fun g => g.Tagset)
    · rwa [if_pos hk]
    · rw [if_neg hk]
      simp [List.nodup_append, h1, hk]
  · intro g hg x hx
    rcases mem_addToTagset _ _ _ _ g hg with hold | ⟨e, he, hek, rfl⟩ | rfl
    · exact h2 g hold x hx
    · rcases List.mem_append.mp hx with hx1 | hx1
      · exact h2 e he x hx1
      · rw [List.mem_singleton.mp hx1]
        exact hek
    · rw [List.mem_singleton.mp hx]
  · intro g hg
    rcases mem_addToTagset _ _ _ _ g hg with hold | ⟨e, he, _, rfl⟩ | rfl
    · exact (h3 g hold).trans (List.sublist_append_left L [t])
    · exact List.Sublist.append (h3 e he) (List.Sublist.refl [t])
    · exact List.Sublist.append (List.nil_sublist L) (List.Sublist.refl [t])
  · intro g hg
    rcases mem_addToTagset _ _ _ _ g hg with hold | ⟨e, he, _, rfl⟩ | rfl
    · exact h4 g hold
    · simp [h4 e he]
    · simp

/-- The task loop of `GetSummaryByTagset` preserves the loop invariant over
the whole task list. -/
theorem summaryFold_inv (start finish : Option Int) :
    ∀ (ts L : List Task) (acc : List TagsetSummary),
      SummaryInv (fun x => x.GetFilteredClosedSegmentsDuration start finish) L acc →
      SummaryInv (fun x => x.GetFilteredClosedSegmentsDuration start finish) (L ++ ts)
        (ts.foldl (summaryStep start finish) acc) := by
  intro ts
  induction ts with
  | nil =>
    intro L acc h
    simpa using h
  | cons t ts ih =>
    intro L acc h
    rw [List.foldl_cons, List.append_cons]
    apply ih
    unfold summaryStep
    by_cases hskip :
        ((start.isSome || finish.isSome) && !t.HasSegmentsInRange start finish) = true
    · rw [if_pos hskip]
      obtain ⟨h1, h2, h3, h4⟩ := h
      exact ⟨h1, h2, fun g hg => (h3 g hg).trans (List.sublist_append_left L [t]), h4⟩
    · rw [if_neg hskip]
      exact addToTagset_inv _ L t acc h

/-- C10: in every summary, the group keys are distinct, every group carries
exactly the tasks whose tagset key is the group's key (so each included
task lies in exactly one group), the tasks of a group appear in the
watch's task order, and each group's duration is the sum of the filtered
durations of exactly the tasks it lists. -/
theorem GetSummaryByTagset_group_invariants (w : Watch) (start finish : Option Int) :
    ((w.GetSummaryByTagset start finish).map (fun g => g.Tagset)).Nodup
    ∧ (∀ g ∈ w.GetSummaryByTagset start finish, ∀ t ∈ g.Tasks,
        g.Tagset = getTagsetKey t.tags)
    ∧ (∀ g1 ∈ w.GetSummaryByTagset start finish, ∀ g2 ∈ w.GetSummaryByTagset start finish,
        ∀ t : Task, t ∈ g1.Tasks → t ∈ g2.Tasks → g1 = g2)
    ∧ (∀ g ∈ w.GetSummaryByTagset start finish, g.Tasks.Sublist w.tasks)
    ∧ (∀ g ∈ w.GetSummaryByTagset start finish,
        g.Duration =
          (g.Tasks.map (fun t => t.GetFilteredClosedSegmentsDuration start finish)).sum) := by
  have hfold := summaryFold_inv start finish w.tasks [] []
    ⟨List.nodup_nil, by simp, by simp, by simp⟩
  rw [List.nil_append] at hfold
  obtain ⟨h1, h2, h3, h4⟩ := hfold
  have hperm : (w.GetSummaryByTagset start finish).Perm
      (w.tasks.foldl (summaryStep start finish) []) :=
    List.perm_insertionSort byDescDuration _
  have hmem : ∀ g, g ∈ w.GetSummaryByTagset start finish ↔
      g ∈ w.tasks.foldl (summaryStep start finish) [] := fun g => hperm.mem_iff
  have hnodup : ((w.GetSummaryByTagset start finish).map (fun g => g.Tagset)).Nodup :=
    ((hperm.map (fun g => g.Tagset)).nodup_iff).mpr h1
  refine ⟨hnodup, ?_, ?_, ?_, ?_⟩
  · intro g hg t ht
    exact h2 g ((hmem g).mp hg) t ht
  · intro g1 hg1 g2 hg2 t ht1 ht2
    have hk : g1.Tagset = g2.Tagset := by
      rw [h2 g1 ((hmem g1).mp hg1) t ht1, h2 g2 ((hmem g2).mp hg2) t ht2]
    exact List.inj_on_of_nodup_map hnodup hg1 hg2 hk
  · intro g hg
    exact h3 g ((hmem g).mp hg)
  · intro g hg
    exact h4 g ((hmem g).mp hg)

/-- Witness for C10 at a one-task watch: the single group's duration equals
the summed filtered duration of its listed tasks. -/
theorem GetSummaryByTagset_group_invariants_witness :
    (⟨"a", [⟨"t", "", ["a"], [⟨1, 5, ""⟩]⟩], 4⟩ : TagsetSummary).Duration =
      ((⟨"a", [⟨"t", "", ["a"], [⟨1, 5, ""⟩]⟩], 4⟩ : TagsetSummary).Tasks.map
        (fun t => t.GetFilteredClosedSegmentsDuration none none)).sum :=
  (GetSummaryByTagset_group_invariants ⟨[⟨"t", "", ["a"], [⟨1, 5, ""⟩]⟩]⟩ none none).2.2.2.2
    ⟨"a", [⟨"t", "", ["a"], [⟨1, 5, ""⟩]⟩], 4⟩ (by decide)

/-- Nanoseconds in one day (times are taken in a fixed-offset zone, so
`AddDate(0, 0, n)` adds exactly `n` of these). -/
def nsPerDay : Int := 86400000000000

/-- Nanoseconds in seven days, the week step of the report generator. -/
def nsPerWeek : Int := 7 * nsPerDay

/-- Calendar day index of a timestamp (floor division; the divisor is
positive, so Euclidean division is the floor). -/
def dayIndex (t : Int) : Int := t / nsPerDay

/-- Model of `t.Weekday()`: day `0` (the Go zero time) is a Monday, so
Sunday maps to `0`, Monday to `1`, …, Saturday to `6`, as in Go. -/
def weekdayOf (t : Int) : Int := (dayIndex t + 1) % 7

/-- Model of `time.Date(t.Year(), t.Month(), t.Day(), 0, 0, 0, 0, loc)`:
truncation to midnight of the timestamp's day. -/
def startOfDay (t : Int) : Int := nsPerDay * dayIndex t

/-- Model of `getMondayOfWeek` from `cmd/ow`: step back to the Monday of
the week containing `t` (6 days back from a Sunday, `weekday - 1` days
back otherwise) and truncate to midnight. -/
def getMondayOfWeek (t : Int) : Int :=
  let currentWeekday := weekdayOf t
  let daysBack := if currentWeekday = 0 then 6 else currentWeekday - 1
  let monday := t - daysBack * nsPerDay
  startOfDay monday

/-- The loop of `getWeekStarts`: collect `current` and step seven days
while `current` is not after `weekEnd`. -/
def getWeekStartsLoop (weekEnd current : Int) : List Int :=
  if _h : weekEnd < current then []
  else current :: getWeekStartsLoop weekEnd (current + nsPerWeek)
termination_by (weekEnd + nsPerWeek - current).toNat
decreasing_by
  simp only [nsPerWeek, nsPerDay]
  omega

/-- Model of `getWeekStarts` from `cmd/ow`: every Monday-midnight from the
week of the earliest segment through the week of the latest one. -/
def getWeekStarts (earliestSegment latestSegment : Int) : List Int :=
  getWeekStartsLoop (getMondayOfWeek latestSegment) (getMondayOfWeek earliestSegment)

/-- Model of `Watch.GetWeeklySummaryByTagset` from `pkg/task/summary.go`:
for each week start, summarize the window `[weekStart, weekStart + 7d)`
and keep only weeks with at least one tagset group. -/
def Watch.GetWeeklySummaryByTagset (w : Watch) (weekStarts : List Int) : List WeeklySummary :=
  weekStarts.filterMap (fun weekStart =>
    let weekEnd := weekStart + nsPerWeek
    let tagsetSummaries := w.GetSummaryByTagset (some weekStart) (some weekEnd)
    if tagsetSummaries.length > 0 then some ⟨weekStart, tagsetSummaries⟩ else none)

/-- Model of `Watch.GetWeeklySummaryByTagsetWithTasks` from
`pkg/task/summary.go`, which textually duplicates the grouping loop of
`GetSummaryByTagset` inline (its skip test is the bare
`!HasSegmentsInRange`, with no nil-bounds escape). -/
def Watch.GetWeeklySummaryByTagsetWithTasks (w : Watch) (weekStarts : List Int) :
    List WeeklySummary :=
  weekStarts.filterMap (fun weekStart =>
    let weekEnd := weekStart + nsPerWeek
    let tagsetMap := w.tasks.foldl
      (fun acc currentTask =>
        if !currentTask.HasSegmentsInRange (some weekStart) (some weekEnd) then acc
        else
          addToTagset acc (getTagsetKey currentTask.tags) currentTask
            (currentTask.GetFilteredClosedSegmentsDuration (some weekStart) (some weekEnd))) []
    let tagsetSummaries := List.insertionSort byDescDuration tagsetMap
    if tagsetSummaries.length > 0 then some ⟨weekStart, tagsetSummaries⟩ else none)

/-- C2: the two weekly-summary paths agree exactly — same weeks kept (those
with at least one tagset group over `[weekStart, weekStart + 7d)`), same
groups, same durations, same member task lists — because with both week
bounds present the nil-bounds escape of `GetSummaryByTagset`'s skip test is
vacuous and the two task loops coincide. -/
theorem weekly_summary_paths_agree (w : Watch) (weekStarts : List Int) :
    w.GetWeeklySummaryByTagset weekStarts = w.GetWeeklySummaryByTagsetWithTasks weekStarts := by
  unfold Watch.GetWeeklySummaryByTagset Watch.GetWeeklySummaryByTagsetWithTasks
    Watch.GetSummaryByTagset summaryStep
  simp only [Option.isSome_some, Bool.true_or, Bool.true_and]

/-- The Monday-of-week computation is the floor of the timestamp to a whole
number of weeks: day `0` is a Monday, so Monday midnights are exactly the
multiples of `nsPerWeek`. -/
theorem getMondayOfWeek_eq (t : Int) : getMondayOfWeek t = nsPerWeek * (t / nsPerWeek) := by
  simp only [getMondayOfWeek, startOfDay, weekdayOf, dayIndex, nsPerWeek, nsPerDay]
  split <;> omega

/-- Normal form of the week-start loop: starting at `current` with the end
`n` weeks later, it returns the `n + 1` week starts `current + i` weeks. -/
theorem getWeekStartsLoop_eq :
    ∀ (n : Nat) (current : Int),
      getWeekStartsLoop (current + (n : Int) * nsPerWeek) current =
        (List.range (n + 1)).map (fun i : Nat => current + (i : Int) * nsPerWeek) := by
  have hW : (0 : Int) < nsPerWeek := by norm_num [nsPerWeek, nsPerDay]
  intro n
  induction n with
  | zero =>
    intro current
    rw [getWeekStartsLoop]
    split
    · next hlt =>
      exfalso
      simp only [Nat.cast_zero, zero_mul, add_zero] at hlt
      exact lt_irrefl _ hlt
    · next hlt =>
      rw [getWeekStartsLoop]
      split
      · next _h2 => simp [List.range_succ]
      · next h2 =>
        exfalso
        simp only [Nat.cast_zero, zero_mul, add_zero] at h2
        exact h2 (by linarith)
  | succ n ih =>
    intro current
    have hpos : (0 : Int) ≤ ((n + 1 : Nat) : Int) * nsPerWeek :=
      mul_nonneg (by positivity) hW.le
    rw [getWeekStartsLoop]
    split
    · next hlt =>
      exfalso
      linarith
    · next hlt =>
      have harg : current + ((n + 1 : Nat) : Int) * nsPerWeek
          = (current + nsPerWeek) + (n : Int) * nsPerWeek := by
        push_cast
        ring
      rw [harg, ih (current + nsPerWeek)]
      have hr : (List.range (n + 1 + 1)).map (fun i : Nat => current + (i : Int) * nsPerWeek)
          = current ::
            (List.range (n + 1)).map (fun i : Nat => (current + nsPerWeek) + (i : Int) * nsPerWeek) := by
        rw [List.range_succ_eq_map]
        simp only [List.map_cons, List.map_map, Nat.cast_zero, zero_mul, add_zero]
        refine congrArg (current :: ·) (List.map_congr_left fun i _ => ?_)
        simp only [Function.comp_apply]
        push_cast
        ring
      rw [hr]

/-- C7: for `earliest ≤ latest`, `getWeekStarts` returns the ascending
week starts from the Monday midnight of `earliest`'s week through that of
`latest`'s week inclusive: every entry is a Monday midnight (a fixed point
of `getMondayOfWeek`), consecutive entries are exactly seven days apart,
the length is `floor((weekStart(latest) - weekStart(earliest)) / 7d) + 1`,
and two timestamps in the same calendar week give exactly one entry. -/
theorem getWeekStarts_spec (earliest latest : Int) (h : earliest ≤ latest) :
    (getWeekStarts earliest latest).head? = some (getMondayOfWeek earliest)
    ∧ (getWeekStarts earliest latest).getLast? = some (getMondayOfWeek latest)
    ∧ (∀ x ∈ getWeekStarts earliest latest, x = getMondayOfWeek x)
    ∧ List.Chain' (fun a b => b = a + nsPerWeek) (getWeekStarts earliest latest)
    ∧ List.Sorted (· < ·) (getWeekStarts earliest latest)
    ∧ (getWeekStarts earliest latest).length =
        ((getMondayOfWeek latest - getMondayOfWeek earliest) / nsPerWeek).toNat + 1
    ∧ (getMondayOfWeek earliest = getMondayOfWeek latest →
        getWeekStarts earliest latest = [getMondayOfWeek earliest]) := by
  have hW : (0 : Int) < nsPerWeek := by norm_num [nsPerWeek, nsPerDay]
  have hWne : nsPerWeek ≠ 0 := ne_of_gt hW
  have hMe := getMondayOfWeek_eq earliest
  have hMl := getMondayOfWeek_eq latest
  have hq : earliest / nsPerWeek ≤ latest / nsPerWeek := Int.ediv_le_ediv hW h
  have hn : ((latest / nsPerWeek - earliest / nsPerWeek).toNat : Int)
      = latest / nsPerWeek - earliest / nsPerWeek := Int.toNat_of_nonneg (sub_nonneg.mpr hq)
  have harg : getMondayOfWeek latest = getMondayOfWeek earliest
      + ((latest / nsPerWeek - earliest / nsPerWeek).toNat : Int) * nsPerWeek := by
    rw [hMe, hMl, hn]
    ring
  have hws : getWeekStarts earliest latest
      = (List.range ((latest / nsPerWeek - earliest / nsPerWeek).toNat + 1)).map
          (fun i : Nat => getMondayOfWeek earliest + (i : Int) * nsPerWeek) := by
    unfold getWeekStarts
    rw [harg, getWeekStartsLoop_eq]
  refine ⟨?_, ?_, ?_, ?_, ?_, ?_, ?_⟩
  · rw [hws, List.range_succ_eq_map]
    simp
  · rw [hws, List.range_succ, List.map_append]
    simp only [List.map_cons, List.map_nil]
    rw [List.getLast?_concat, harg]
  · intro x hx
    rw [hws] at hx
    rcases List.mem_map.mp hx with ⟨i, _, rfl⟩
    have hsum : nsPerWeek * (earliest / nsPerWeek) + (i : Int) * nsPerWeek
        = nsPerWeek * (earliest / nsPerWeek + i) := by ring
    rw [hMe, getMondayOfWeek_eq, hsum, Int.mul_ediv_cancel_left _ hWne]
  · rw [hws]
    rw [List.chain'_map, List.chain'_range_succ]
    intro m _
    push_cast
    ring
  · rw [hws]
    refine (List.pairwise_map.mpr (List.Pairwise.imp ?_ (List.pairwise_lt_range _)))
    intro a b hab
    have hab2 : (a : Int) < (b : Int) := by exact_mod_cast hab
    exact add_lt_add_left (mul_lt_mul_of_pos_right hab2 hW) _
  · rw [hws]
    simp only [List.length_map, List.length_range]
    have hdiff : getMondayOfWeek latest - getMondayOfWeek earliest
        = ((latest / nsPerWeek - earliest / nsPerWeek).toNat : Int) * nsPerWeek := by
      rw [harg]
      ring
    rw [hdiff, Int.mul_ediv_cancel _ hWne, Int.toNat_natCast]
  · intro heq
    rw [heq] at harg
    have h0 : ((latest / nsPerWeek - earliest / nsPerWeek).toNat : Int) * nsPerWeek = 0 := by
      linarith
    have h1 : ((latest / nsPerWeek - earliest / nsPerWeek).toNat : Int) = 0 := by
      rcases mul_eq_zero.mp h0 with h2 | h2
      · exact h2
      · exact absurd h2 hWne
    have h2 : (latest / nsPerWeek - earliest / nsPerWeek).toNat = 0 := by exact_mod_cast h1
    rw [hws, h2]
    simp [List.range_succ]

/-- Witness for C7 at two concrete timestamps one day apart, both inside
the first week after the epoch. -/
theorem getWeekStarts_spec_witness :
    (getWeekStarts 0 86400000000000).length =
      ((getMondayOfWeek 86400000000000 - getMondayOfWeek 0) / nsPerWeek).toNat + 1 :=
  (getWeekStarts_spec 0 86400000000000 (by norm_num)).2.2.2.2.2.1

/-- Outcome of the `os.ReadFile` call in `LoadTasksFromFile`: the file is
absent (`os.IsNotExist`), reading fails for another reason, or the file's
contents are returned. -/
inductive ReadFileResult where
  | notFound
  | readFailure (msg : String)
  | fileData (contents : String)
deriving DecidableEq, Repr

/-- Model of `Watch.LoadTasksFromFile` from the task lifecycle file.  The
two external effects — `os.ReadFile` and `yaml.Unmarshal` into a task
list — are passed as parameters; the function body mirrors the Go control
flow: an absent file resets the task list to empty and reports success, a
read failure and an unmarshal failure are wrapped and surfaced as errors,
and a successful parse replaces the task list. -/
def Watch.LoadTasksFromFile (w : Watch) (readFile : String → ReadFileResult)
    (yamlUnmarshalTasks : String → Except String (List Task)) (filePath : String) :
    Except String Watch :=
  match readFile filePath with
  | ReadFileResult.notFound => Except.ok { w with tasks := [] }
  | ReadFileResult.readFailure msg => Except.error ("unable to read file: " ++ msg)
  | ReadFileResult.fileData contents =>
    match yamlUnmarshalTasks contents with
    | Except.error msg => Except.error ("unable to yaml unmarshal: " ++ msg)
    | Except.ok tasks => Except.ok { w with tasks := tasks }

/-- C8: loading from an absent file succeeds with the watch's task list set
to the empty sequence, while a file that reads but fails to parse yields an
error value — never a success carrying a partial or empty collection. -/
theorem LoadTasksFromFile_spec (w : Watch) (readFile : String → ReadFileResult)
    (yamlUnmarshalTasks : String → Except String (List Task)) (filePath : String) :
    (readFile filePath = ReadFileResult.notFound →
        w.LoadTasksFromFile readFile yamlUnmarshalTasks filePath =
          Except.ok { w with tasks := [] })
    ∧ (∀ contents msg, readFile filePath = ReadFileResult.fileData contents →
        yamlUnmarshalTasks contents = Except.error msg →
        w.LoadTasksFromFile readFile yamlUnmarshalTasks filePath =
          Except.error ("unable to yaml unmarshal: " ++ msg)) := by
  constructor
  · intro h
    simp [Watch.LoadTasksFromFile, h]
  · intro contents msg h1 h2
    simp [Watch.LoadTasksFromFile, h1, h2]

/-- Witness for C8: loading a concrete watch from an absent file resets it
to the empty task list without an error, even under a parser that always
fails. -/
theorem LoadTasksFromFile_spec_witness :
    Watch.LoadTasksFromFile ⟨[⟨"t", "", [], []⟩]⟩ (fun _ => ReadFileResult.notFound)
      (fun _ => Except.error "bad") "tasks.yaml" = Except.ok ⟨[]⟩ :=
  (LoadTasksFromFile_spec ⟨[⟨"t", "", [], []⟩]⟩ (fun _ => ReadFileResult.notFound)
    (fun _ => Except.error "bad") "tasks.yaml").1 rfl

end OhgmasWatch
